import Mathlib

/-!
Verification of the Bloom filter implementation in `src/BloomFilter.py`.

The filter engine is embedded shallowly:

* the external `BitVector` storage collaborator becomes a `List Bool`
  (index `i` holds bit `i`; `get` is `List.getD · false`, `set` is `List.set`);
* the external `BitHash` collaborator (`hash(key, seed) -> non-negative
  integer`) becomes an arbitrary function parameter `BitHash : κ → ℕ → ℕ`
  over an arbitrary key type `κ`;
* Python integers held in filter fields are `ℕ` (they are non-negative in
  every state reachable from a valid construction);
* the `for i in range(...)` loops of `insert` and `find` become structural
  recursion on the remaining iteration count, threading the current hash
  value exactly as the Python loop body does;
* Python float arithmetic in `falsePositiveRate` is modelled exactly over `ℚ`
  (the method performs one subtraction, one division and one integer power).
-/

namespace BloomPy

variable {κ : Type}

/-- The state of a `BloomFilter` object: the private attributes assigned in
`BloomFilter.__init__` (`src/BloomFilter.py` lines 31-37).
`bloomFilter` is the bit storage, `size` the storage length obtained from the
planner, `bitsSet` the running count of set bits, `numHashes` the probe
count. -/
structure BloomFilter where
  bloomFilter : List Bool
  size : ℕ
  bitsSet : ℕ
  numHashes : ℕ
  deriving DecidableEq

/-- The loop body of `BloomFilter.insert` (`src/BloomFilter.py` lines 48-58):
`h` is the current hash value, the second argument the number of remaining
iterations.  Each iteration checks the bit at `h % size` before setting it
(incrementing `bitsSet` only on a `0 → 1` transition) and rehashes `h`. -/
def insertLoop (BitHash : κ → ℕ → ℕ) (key : κ) : ℕ → ℕ → BloomFilter → BloomFilter
  | _, 0, bf => bf
  | h, i + 1, bf =>
      let idx := h % bf.size
      let bitsSet' := if bf.bloomFilter.getD idx false = false then bf.bitsSet + 1 else bf.bitsSet
      let storage' := bf.bloomFilter.set idx true
      insertLoop BitHash key (BitHash key h) i
        { bf with bloomFilter := storage', bitsSet := bitsSet' }

/-- `BloomFilter.insert` (`src/BloomFilter.py` lines 43-58): initialize
`h = BitHash(key, 0)` and run the loop `numHashes` times. -/
def insert (BitHash : κ → ℕ → ℕ) (key : κ) (bf : BloomFilter) : BloomFilter :=
  insertLoop BitHash key (BitHash key 0) bf.numHashes bf

/-- The loop of `BloomFilter.find` (`src/BloomFilter.py` lines 68-77):
return `false` on the first probed bit equal to 0, rehash otherwise;
`true` when the iterations are exhausted. -/
def findLoop (BitHash : κ → ℕ → ℕ) (key : κ) (bf : BloomFilter) : ℕ → ℕ → Bool
  | _, 0 => true
  | h, i + 1 =>
      if bf.bloomFilter.getD (h % bf.size) false = false then false
      else findLoop BitHash key bf (BitHash key h) i

/-- `BloomFilter.find` (`src/BloomFilter.py` lines 63-77). -/
def find (BitHash : κ → ℕ → ℕ) (key : κ) (bf : BloomFilter) : Bool :=
  findLoop BitHash key bf (BitHash key 0) bf.numHashes

/-- `BloomFilter.falsePositiveRate` (`src/BloomFilter.py` lines 88-97):
`phi = (size - bitsSet) / size`, `P = (1 - phi) ** numHashes`.  The Python
float arithmetic here is one subtraction, one division and one power with a
non-negative integer exponent; it is modelled exactly over `ℚ`. -/
def falsePositiveRate (bf : BloomFilter) : ℚ :=
  let phi : ℚ := ((bf.size : ℚ) - (bf.bitsSet : ℚ)) / (bf.size : ℚ)
  let d := bf.numHashes
  (1 - phi) ^ d

/-- `BloomFilter.numBitsSet` (`src/BloomFilter.py` lines 103-104). -/
def numBitsSet (bf : BloomFilter) : ℕ :=
  bf.bitsSet

/-- The state built by `BloomFilter.__init__` (`src/BloomFilter.py`
lines 29-37) once the planner has returned `num`: zero-initialized storage of
length `num`, `size = num`, `bitsSet = 0`, `numHashes` as given. -/
def mkFilter (num numHashes : ℕ) : BloomFilter :=
  { bloomFilter := List.replicate num false
    size := num
    bitsSet := 0
    numHashes := numHashes }

/-- The hash value used at probe `j` for a given key: `hashSeq 0` is
`BitHash key 0`, and each later value feeds the previous one back as the
seed, exactly as both `insert` and `find` rehash. -/
def hashSeq (BitHash : κ → ℕ → ℕ) (key : κ) : ℕ → ℕ
  | 0 => BitHash key 0
  | j + 1 => BitHash key (hashSeq BitHash key j)

/-- The probe indices a key determines in a filter: `hashSeq j % size` for
`j = 0, …, numHashes - 1`.  Both `insert` and `find` touch exactly these. -/
def probeIndices (BitHash : κ → ℕ → ℕ) (key : κ) (bf : BloomFilter) : List ℕ :=
  (List.range bf.numHashes).map fun j => hashSeq BitHash key j % bf.size

/-- Structural well-formedness established by construction: the storage
length equals `size`, and `size` is positive (the planner output for valid
parameters). -/
def Valid (bf : BloomFilter) : Prop :=
  bf.bloomFilter.length = bf.size ∧ 0 < bf.size

instance (bf : BloomFilter) : Decidable (Valid bf) := by
  unfold Valid; infer_instance

/-- The hash value reached from current value `h` after `j` further
rehashes; `hashFrom h 0 = h`. -/
def hashFrom (BitHash : κ → ℕ → ℕ) (key : κ) (h : ℕ) : ℕ → ℕ
  | 0 => h
  | j + 1 => hashFrom BitHash key (BitHash key h) j

/-- A method call on a `BloomFilter` object: one of the four public
methods of the class. -/
inductive Op (κ : Type) where
  | insert (key : κ)
  | find (key : κ)
  | falsePositiveRate
  | numBitsSet

/-- The state transition performed by one method call.  `insert` is the
only method whose body assigns to an attribute of `self`
(`src/BloomFilter.py` lines 52, 55); the bodies of `find`,
`falsePositiveRate` and `numBitsSet` contain no assignment, so their state
transition is the identity. -/
def applyOp (BitHash : κ → ℕ → ℕ) : Op κ → BloomFilter → BloomFilter
  | Op.insert key, bf => insert BitHash key bf
  | Op.find _, bf => bf
  | Op.falsePositiveRate, bf => bf
  | Op.numBitsSet, bf => bf

/-- The state after a sequence of method calls. -/
def runOps (BitHash : κ → ℕ → ℕ) (ops : List (Op κ)) (bf : BloomFilter) : BloomFilter :=
  ops.foldl (fun b op => applyOp BitHash op b) bf

/-- Python `int()` applied to a float value: truncation toward zero. -/
noncomputable def intTrunc (x : ℝ) : ℤ :=
  if 0 ≤ x then ⌊x⌋ else ⌈x⌉

/-- Python float division `a / b`: raises `ZeroDivisionError` when `b = 0`,
otherwise returns the quotient. -/
noncomputable def pyDiv (a b : ℝ) : Except String ℝ :=
  if b = 0 then Except.error "ZeroDivisionError" else Except.ok (a / b)

/-- Python float power `a ** b`: raises `ZeroDivisionError` when the base is
zero and the exponent negative, otherwise returns `a ^ b` (`Real.rpow`).
For a negative base and non-integral exponent Python produces a `complex`
value where `Real.rpow` produces a real number; no theorem in this file
evaluates `pyPow` on a negative base, so the model is exact wherever it is
used. -/
noncomputable def pyPow (a b : ℝ) : Except String ℝ :=
  if a = 0 ∧ b < 0 then Except.error "ZeroDivisionError" else Except.ok (a ^ b)

/-- `BloomFilter.__bitsNeeded` (`src/BloomFilter.py` lines 12-19), with the
Python float arithmetic idealized over `ℝ`, inputs as Python integers, and
the fallible operations (`1/d`, `P**(1/d)`, `1/n`, `phi**(1/n)`,
`d/(1 - …)`) evaluated in the order the Python expression evaluates them:
`phi = 1 - P**(1/d)`, `N = d/(1 - phi**(1/n))`, `return int(N)`. -/
noncomputable def bitsNeededE (numKeys numHashes : ℤ) (maxFalsePositive : ℝ) :
    Except String ℤ := do
  let n := numKeys
  let d := numHashes
  let P := maxFalsePositive
  let e1 ← pyDiv 1 (d : ℝ)
  let pd ← pyPow P e1
  let phi := 1 - pd
  let e2 ← pyDiv 1 (n : ℝ)
  let pn ← pyPow phi e2
  let N ← pyDiv (d : ℝ) (1 - pn)
  pure (intTrunc N)

/-- `BloomFilter.__init__` (`src/BloomFilter.py` lines 25-37): obtain the
storage size from the planner (any planner exception propagates before any
storage is allocated), then build the state.  `BitVector`'s behaviour on a
negative requested size belongs to the excluded storage collaborator, so
`Int.toNat` is applied at this boundary; every theorem below that reaches
the allocation has a non-negative planner output. -/
noncomputable def newFilter (numKeys numHashes : ℤ) (maxFalsePositive : ℝ) :
    Except String BloomFilter := do
  let num ← bitsNeededE numKeys numHashes maxFalsePositive
  pure (mkFilter num.toNat numHashes.toNat)

/-- The Capacity Planner formula exactly as the spec words it (claim C3):
compute `phi = 1 - P^(1/d)`, then `N = d / (1 - phi^(1/n))`, then floor. -/
noncomputable def bitsNeededSpec (numKeys numHashes : ℤ) (maxFalsePositive : ℝ) : ℤ :=
  let phi : ℝ := 1 - maxFalsePositive ^ ((1 : ℝ) / (numHashes : ℝ))
  let N : ℝ := (numHashes : ℝ) / (1 - phi ^ ((1 : ℝ) / (numKeys : ℝ)))
  ⌊N⌋

/-- The projected false-positive rate exactly as the spec words it
(claim C6): `phi = (capacityBits - bitsSetCount) / capacityBits`,
`P = (1 - phi) ^ hashCount`, a function of the current fill level only. -/
def falsePositiveRateSpec (bf : BloomFilter) : ℚ :=
  (1 - ((bf.size : ℚ) - (bf.bitsSet : ℚ)) / (bf.size : ℚ)) ^ bf.numHashes

theorem hashFrom_succ (BitHash : κ → ℕ → ℕ) (key : κ) (h : ℕ) (j : ℕ) :
    hashFrom BitHash key h (j + 1) = hashFrom BitHash key (BitHash key h) j := rfl

theorem hashFrom_step (BitHash : κ → ℕ → ℕ) (key : κ) (h : ℕ) (j : ℕ) :
    BitHash key (hashFrom BitHash key h j) = hashFrom BitHash key (BitHash key h) j := by
  induction j generalizing h with
  | zero => rfl
  | succ j ih => rw [hashFrom, hashFrom, ih]

theorem hashSeq_eq_hashFrom (BitHash : κ → ℕ → ℕ) (key : κ) (j : ℕ) :
    hashSeq BitHash key j = hashFrom BitHash key (BitHash key 0) j := by
  induction j with
  | zero => rfl
  | succ j ih =>
      rw [hashSeq, ih, hashFrom_step BitHash key (BitHash key 0) j,
        hashFrom_succ BitHash key (BitHash key 0) j]

/-! ### List helpers for the bit storage -/

theorem getD_set_true (l : List Bool) (i j : ℕ) (h : l.getD j false = true) :
    (l.set i true).getD j false = true := by
  induction l generalizing i j with
  | nil => simp at h
  | cons a t ih =>
      cases i with
      | zero =>
          cases j with
          | zero => simp [List.set]
          | succ j => simpa using h
      | succ i =>
          cases j with
          | zero => simpa using h
          | succ j => simpa using ih i j (by simpa using h)

theorem getD_set_self (l : List Bool) (i : ℕ) (hi : i < l.length) :
    (l.set i true).getD i false = true := by
  induction l generalizing i with
  | nil => simp at hi
  | cons a t ih =>
      cases i with
      | zero => simp [List.set]
      | succ i => simpa using ih i (by simpa using hi)

theorem getD_set_ne (l : List Bool) (b : Bool) (i j : ℕ) (h : i ≠ j) :
    (l.set i b).getD j false = l.getD j false := by
  induction l generalizing i j with
  | nil => simp
  | cons a t ih =>
      cases i with
      | zero =>
          cases j with
          | zero => exact absurd rfl h
          | succ j => simp [List.set]
      | succ i =>
          cases j with
          | zero => simp [List.set]
          | succ j => simpa using ih i j (by omega)

theorem count_set_true (l : List Bool) (i : ℕ) (hi : i < l.length) :
    (l.set i true).count true
      = l.count true + (if l.getD i false = false then 1 else 0) := by
  induction l generalizing i with
  | nil => simp at hi
  | cons a t ih =>
      cases i with
      | zero =>
          cases a <;> simp [List.set, List.count_cons]
      | succ i =>
          have := ih i (by simpa using hi)
          cases a <;> (simp [List.set, List.count_cons, this]; try ring)

/-! ### Frame and effect lemmas for the insert loop -/

/-- One unfolding of the insert loop, with the `let` bindings resolved. -/
theorem insertLoop_succ (BitHash : κ → ℕ → ℕ) (key : κ) (h n : ℕ) (bf : BloomFilter) :
    insertLoop BitHash key h (n + 1) bf
      = insertLoop BitHash key (BitHash key h) n
          { bf with
            bloomFilter := bf.bloomFilter.set (h % bf.size) true
            bitsSet :=
              if bf.bloomFilter.getD (h % bf.size) false = false
              then bf.bitsSet + 1 else bf.bitsSet } := rfl

theorem insertLoop_size (BitHash : κ → ℕ → ℕ) (key : κ) (h n : ℕ) (bf : BloomFilter) :
    (insertLoop BitHash key h n bf).size = bf.size := by
  induction n generalizing h bf with
  | zero => rfl
  | succ n ih => rw [insertLoop_succ]; exact ih _ _

theorem insertLoop_numHashes (BitHash : κ → ℕ → ℕ) (key : κ) (h n : ℕ) (bf : BloomFilter) :
    (insertLoop BitHash key h n bf).numHashes = bf.numHashes := by
  induction n generalizing h bf with
  | zero => rfl
  | succ n ih => rw [insertLoop_succ]; exact ih _ _

theorem insertLoop_length (BitHash : κ → ℕ → ℕ) (key : κ) (h n : ℕ) (bf : BloomFilter) :
    (insertLoop BitHash key h n bf).bloomFilter.length = bf.bloomFilter.length := by
  induction n generalizing h bf with
  | zero => rfl
  | succ n ih =>
      rw [insertLoop_succ]
      exact (ih _ _).trans (List.length_set _ _ _)

theorem insertLoop_bit_mono (BitHash : κ → ℕ → ℕ) (key : κ) (h n : ℕ) (bf : BloomFilter)
    (j : ℕ) (hj : bf.bloomFilter.getD j false = true) :
    (insertLoop BitHash key h n bf).bloomFilter.getD j false = true := by
  induction n generalizing h bf with
  | zero => exact hj
  | succ n ih =>
      rw [insertLoop_succ]
      exact ih _ _ (getD_set_true _ _ _ hj)

theorem insertLoop_bitsSet_le (BitHash : κ → ℕ → ℕ) (key : κ) (h n : ℕ) (bf : BloomFilter) :
    bf.bitsSet ≤ (insertLoop BitHash key h n bf).bitsSet := by
  induction n generalizing h bf with
  | zero => exact le_refl _
  | succ n ih =>
      rw [insertLoop_succ]
      refine le_trans ?_ (ih (BitHash key h) _)
      dsimp only
      by_cases hb : bf.bloomFilter.getD (h % bf.size) false = false
      · rw [if_pos hb]; exact Nat.le_succ _
      · rw [if_neg hb]

/-- The bits of the storage after running the insert loop: a bit is set
exactly when it was already set or it is one of the loop's probe indices. -/
theorem insertLoop_getD (BitHash : κ → ℕ → ℕ) (key : κ) (h n : ℕ) (bf : BloomFilter)
    (hlen : bf.bloomFilter.length = bf.size) (hsz : 0 < bf.size) (j : ℕ) :
    ((insertLoop BitHash key h n bf).bloomFilter.getD j false = true) ↔
      (bf.bloomFilter.getD j false = true
        ∨ ∃ i, i < n ∧ j = hashFrom BitHash key h i % bf.size) := by
  induction n generalizing h bf with
  | zero =>
      constructor
      · intro hbit; exact Or.inl hbit
      · rintro (hbit | ⟨i, hi, _⟩)
        · exact hbit
        · exact absurd hi (Nat.not_lt_zero i)
  | succ n ih =>
      rw [insertLoop_succ]
      have hlen' : (bf.bloomFilter.set (h % bf.size) true).length = bf.size :=
        (List.length_set _ _ _).trans hlen
      rw [ih (BitHash key h)
        { bf with
          bloomFilter := bf.bloomFilter.set (h % bf.size) true
          bitsSet :=
            if bf.bloomFilter.getD (h % bf.size) false = false
            then bf.bitsSet + 1 else bf.bitsSet }
        hlen' hsz]
      dsimp only
      constructor
      · rintro (hbit | ⟨i, hi, rfl⟩)
        · by_cases hji : j = h % bf.size
          · exact Or.inr ⟨0, Nat.succ_pos n, by simpa [hashFrom] using hji⟩
          · rw [getD_set_ne _ _ _ _ (fun e => hji e.symm)] at hbit
            exact Or.inl hbit
        · exact Or.inr ⟨i + 1, by omega, by rw [hashFrom_succ]⟩
      · rintro (hbit | ⟨i, hi, rfl⟩)
        · exact Or.inl (getD_set_true _ _ _ hbit)
        · cases i with
          | zero =>
              left
              have : h % bf.size < bf.bloomFilter.length := by
                rw [hlen]; exact Nat.mod_lt _ hsz
              simpa [hashFrom] using getD_set_self bf.bloomFilter (h % bf.size) this
          | succ i =>
              right
              exact ⟨i, by omega, by rw [hashFrom_succ]⟩

/-- The running count stays equal to the true number of set bits through the
insert loop. -/
theorem insertLoop_count (BitHash : κ → ℕ → ℕ) (key : κ) (h n : ℕ) (bf : BloomFilter)
    (hlen : bf.bloomFilter.length = bf.size) (hsz : 0 < bf.size)
    (hacc : bf.bloomFilter.count true = bf.bitsSet) :
    (insertLoop BitHash key h n bf).bloomFilter.count true
      = (insertLoop BitHash key h n bf).bitsSet := by
  induction n generalizing h bf with
  | zero => exact hacc
  | succ n ih =>
      rw [insertLoop_succ]
      refine ih (BitHash key h) _ ((List.length_set _ _ _).trans hlen) hsz ?_
      have hidx : h % bf.size < bf.bloomFilter.length := by
        rw [hlen]; exact Nat.mod_lt _ hsz
      dsimp only
      rw [count_set_true _ _ hidx, hacc]
      by_cases hb : bf.bloomFilter.getD (h % bf.size) false = false
      · rw [if_pos hb, if_pos hb]
      · rw [if_neg hb, if_neg hb]; exact Nat.add_zero _

/-! ### Characterization of the find loop -/

theorem findLoop_eq_true_iff (BitHash : κ → ℕ → ℕ) (key : κ) (bf : BloomFilter) (h n : ℕ) :
    findLoop BitHash key bf h n = true ↔
      ∀ j, j < n → bf.bloomFilter.getD (hashFrom BitHash key h j % bf.size) false = true := by
  induction n generalizing h with
  | zero =>
      exact ⟨fun _ j hj => absurd hj (Nat.not_lt_zero j), fun _ => rfl⟩
  | succ n ih =>
      show (if bf.bloomFilter.getD (h % bf.size) false = false then false
            else findLoop BitHash key bf (BitHash key h) n) = true ↔ _
      by_cases hb : bf.bloomFilter.getD (h % bf.size) false = false
      · rw [if_pos hb]
        constructor
        · intro hfalse; exact absurd hfalse (by simp)
        · intro hall
          have := hall 0 (Nat.succ_pos n)
          rw [hashFrom] at this
          rw [this] at hb
          exact absurd hb (by simp)
      · rw [if_neg hb]
        rw [ih (BitHash key h)]
        constructor
        · intro hall j hj
          cases j with
          | zero =>
              rw [hashFrom]
              exact eq_true_of_ne_false hb
          | succ j =>
              rw [hashFrom_succ]
              exact hall j (by omega)
        · intro hall j hj
          rw [← hashFrom_succ]
          exact hall (j + 1) (by omega)

/-! ### Derived facts about insert, find and probe indices -/

theorem insert_size (BitHash : κ → ℕ → ℕ) (key : κ) (bf : BloomFilter) :
    (insert BitHash key bf).size = bf.size :=
  insertLoop_size _ _ _ _ _

theorem insert_numHashes (BitHash : κ → ℕ → ℕ) (key : κ) (bf : BloomFilter) :
    (insert BitHash key bf).numHashes = bf.numHashes :=
  insertLoop_numHashes _ _ _ _ _

theorem insert_length (BitHash : κ → ℕ → ℕ) (key : κ) (bf : BloomFilter) :
    (insert BitHash key bf).bloomFilter.length = bf.bloomFilter.length :=
  insertLoop_length _ _ _ _ _

theorem insert_bit_mono (BitHash : κ → ℕ → ℕ) (key : κ) (bf : BloomFilter)
    (j : ℕ) (hj : bf.bloomFilter.getD j false = true) :
    (insert BitHash key bf).bloomFilter.getD j false = true :=
  insertLoop_bit_mono _ _ _ _ _ _ hj

theorem insert_bitsSet_le (BitHash : κ → ℕ → ℕ) (key : κ) (bf : BloomFilter) :
    bf.bitsSet ≤ (insert BitHash key bf).bitsSet :=
  insertLoop_bitsSet_le _ _ _ _ _

theorem mem_probeIndices (BitHash : κ → ℕ → ℕ) (key : κ) (bf : BloomFilter) (j : ℕ) :
    j ∈ probeIndices BitHash key bf ↔
      ∃ i, i < bf.numHashes ∧ j = hashSeq BitHash key i % bf.size := by
  simp only [probeIndices, List.mem_map, List.mem_range]
  constructor
  · rintro ⟨i, hi, rfl⟩; exact ⟨i, hi, rfl⟩
  · rintro ⟨i, hi, rfl⟩; exact ⟨i, hi, rfl⟩

/-- The bits of the storage after `insert`: a bit is set exactly when it was
already set or it is one of the key's probe indices. -/
theorem insert_getD (BitHash : κ → ℕ → ℕ) (key : κ) (bf : BloomFilter)
    (hlen : bf.bloomFilter.length = bf.size) (hsz : 0 < bf.size) (j : ℕ) :
    ((insert BitHash key bf).bloomFilter.getD j false = true) ↔
      (bf.bloomFilter.getD j false = true ∨ j ∈ probeIndices BitHash key bf) := by
  rw [insert, insertLoop_getD BitHash key _ _ bf hlen hsz j, mem_probeIndices]
  constructor
  · rintro (hbit | ⟨i, hi, rfl⟩)
    · exact Or.inl hbit
    · exact Or.inr ⟨i, hi, by rw [hashSeq_eq_hashFrom]⟩
  · rintro (hbit | ⟨i, hi, rfl⟩)
    · exact Or.inl hbit
    · exact Or.inr ⟨i, hi, by rw [hashSeq_eq_hashFrom]⟩

theorem insert_count (BitHash : κ → ℕ → ℕ) (key : κ) (bf : BloomFilter)
    (hlen : bf.bloomFilter.length = bf.size) (hsz : 0 < bf.size)
    (hacc : bf.bloomFilter.count true = bf.bitsSet) :
    (insert BitHash key bf).bloomFilter.count true = (insert BitHash key bf).bitsSet :=
  insertLoop_count _ _ _ _ _ hlen hsz hacc

/-- `find` returns `true` exactly when all the key's probed bits are set. -/
theorem find_eq_true_iff (BitHash : κ → ℕ → ℕ) (key : κ) (bf : BloomFilter) :
    find BitHash key bf = true ↔
      ∀ j ∈ probeIndices BitHash key bf, bf.bloomFilter.getD j false = true := by
  rw [find, findLoop_eq_true_iff]
  constructor
  · intro hall j hj
    rw [mem_probeIndices] at hj
    obtain ⟨i, hi, rfl⟩ := hj
    rw [hashSeq_eq_hashFrom]
    exact hall i hi
  · intro hall i hi
    rw [← hashSeq_eq_hashFrom]
    exact hall _ ((mem_probeIndices _ _ _ _).2 ⟨i, hi, rfl⟩)

/-- The probe indices only depend on the filter through `numHashes` and
`size`. -/
theorem probeIndices_congr (BitHash : κ → ℕ → ℕ) (key : κ) (bf bf' : BloomFilter)
    (hnh : bf'.numHashes = bf.numHashes) (hsz : bf'.size = bf.size) :
    probeIndices BitHash key bf' = probeIndices BitHash key bf := by
  rw [probeIndices, probeIndices, hnh, hsz]

/-! ### Facts about sequences of method calls -/

theorem runOps_nil (BitHash : κ → ℕ → ℕ) (bf : BloomFilter) :
    runOps BitHash [] bf = bf := rfl

theorem runOps_cons (BitHash : κ → ℕ → ℕ) (op : Op κ) (ops : List (Op κ)) (bf : BloomFilter) :
    runOps BitHash (op :: ops) bf = runOps BitHash ops (applyOp BitHash op bf) := rfl

theorem applyOp_size (BitHash : κ → ℕ → ℕ) (op : Op κ) (bf : BloomFilter) :
    (applyOp BitHash op bf).size = bf.size := by
  cases op with
  | insert key => exact insert_size _ _ _
  | find key => rfl
  | falsePositiveRate => rfl
  | numBitsSet => rfl

theorem applyOp_numHashes (BitHash : κ → ℕ → ℕ) (op : Op κ) (bf : BloomFilter) :
    (applyOp BitHash op bf).numHashes = bf.numHashes := by
  cases op with
  | insert key => exact insert_numHashes _ _ _
  | find key => rfl
  | falsePositiveRate => rfl
  | numBitsSet => rfl

theorem applyOp_length (BitHash : κ → ℕ → ℕ) (op : Op κ) (bf : BloomFilter) :
    (applyOp BitHash op bf).bloomFilter.length = bf.bloomFilter.length := by
  cases op with
  | insert key => exact insert_length _ _ _
  | find key => rfl
  | falsePositiveRate => rfl
  | numBitsSet => rfl

theorem applyOp_bit_mono (BitHash : κ → ℕ → ℕ) (op : Op κ) (bf : BloomFilter)
    (j : ℕ) (hj : bf.bloomFilter.getD j false = true) :
    (applyOp BitHash op bf).bloomFilter.getD j false = true := by
  cases op with
  | insert key => exact insert_bit_mono _ _ _ _ hj
  | find key => exact hj
  | falsePositiveRate => exact hj
  | numBitsSet => exact hj

theorem applyOp_bitsSet_le (BitHash : κ → ℕ → ℕ) (op : Op κ) (bf : BloomFilter) :
    bf.bitsSet ≤ (applyOp BitHash op bf).bitsSet := by
  cases op with
  | insert key => exact insert_bitsSet_le _ _ _
  | find key => exact le_refl _
  | falsePositiveRate => exact le_refl _
  | numBitsSet => exact le_refl _

theorem applyOp_count (BitHash : κ → ℕ → ℕ) (op : Op κ) (bf : BloomFilter)
    (hlen : bf.bloomFilter.length = bf.size) (hsz : 0 < bf.size)
    (hacc : bf.bloomFilter.count true = bf.bitsSet) :
    (applyOp BitHash op bf).bloomFilter.count true = (applyOp BitHash op bf).bitsSet := by
  cases op with
  | insert key => exact insert_count _ _ _ hlen hsz hacc
  | find key => exact hacc
  | falsePositiveRate => exact hacc
  | numBitsSet => exact hacc

theorem runOps_size (BitHash : κ → ℕ → ℕ) (ops : List (Op κ)) (bf : BloomFilter) :
    (runOps BitHash ops bf).size = bf.size := by
  induction ops generalizing bf with
  | nil => rfl
  | cons op ops ih => rw [runOps_cons, ih, applyOp_size]

theorem runOps_numHashes (BitHash : κ → ℕ → ℕ) (ops : List (Op κ)) (bf : BloomFilter) :
    (runOps BitHash ops bf).numHashes = bf.numHashes := by
  induction ops generalizing bf with
  | nil => rfl
  | cons op ops ih => rw [runOps_cons, ih, applyOp_numHashes]

theorem runOps_length (BitHash : κ → ℕ → ℕ) (ops : List (Op κ)) (bf : BloomFilter) :
    (runOps BitHash ops bf).bloomFilter.length = bf.bloomFilter.length := by
  induction ops generalizing bf with
  | nil => rfl
  | cons op ops ih => rw [runOps_cons, ih, applyOp_length]

theorem runOps_bit_mono (BitHash : κ → ℕ → ℕ) (ops : List (Op κ)) (bf : BloomFilter)
    (j : ℕ) (hj : bf.bloomFilter.getD j false = true) :
    (runOps BitHash ops bf).bloomFilter.getD j false = true := by
  induction ops generalizing bf with
  | nil => exact hj
  | cons op ops ih => exact ih _ (applyOp_bit_mono _ _ _ _ hj)

theorem runOps_bitsSet_le (BitHash : κ → ℕ → ℕ) (ops : List (Op κ)) (bf : BloomFilter) :
    bf.bitsSet ≤ (runOps BitHash ops bf).bitsSet := by
  induction ops generalizing bf with
  | nil => exact le_refl _
  | cons op ops ih => exact le_trans (applyOp_bitsSet_le _ _ _) (ih _)

theorem runOps_count (BitHash : κ → ℕ → ℕ) (ops : List (Op κ)) (bf : BloomFilter)
    (hlen : bf.bloomFilter.length = bf.size) (hsz : 0 < bf.size)
    (hacc : bf.bloomFilter.count true = bf.bitsSet) :
    (runOps BitHash ops bf).bloomFilter.count true = (runOps BitHash ops bf).bitsSet := by
  induction ops generalizing bf with
  | nil => exact hacc
  | cons op ops ih =>
      rw [runOps_cons]
      exact ih _ ((applyOp_length _ _ _).trans hlen |>.trans (applyOp_size _ _ _).symm)
        (by rw [applyOp_size]; exact hsz)
        (applyOp_count _ _ _ hlen hsz hacc)

theorem mkFilter_length (num d : ℕ) : (mkFilter num d).bloomFilter.length = num :=
  List.length_replicate _ _

theorem mkFilter_count (num d : ℕ) : (mkFilter num d).bloomFilter.count true = 0 := by
  show (List.replicate num false).count true = 0
  rw [List.count_replicate]
  simp

/-- After `insert key`, every probe index of `key` holds a set bit. -/
theorem insert_sets_probes (BitHash : κ → ℕ → ℕ) (key : κ) (bf : BloomFilter)
    (hlen : bf.bloomFilter.length = bf.size) (hsz : 0 < bf.size) (j : ℕ)
    (hj : j ∈ probeIndices BitHash key bf) :
    (insert BitHash key bf).bloomFilter.getD j false = true :=
  (insert_getD BitHash key bf hlen hsz j).2 (Or.inr hj)

/-! ### Evaluating the Capacity Planner -/

theorem pyDiv_ok (a b : ℝ) (hb : b ≠ 0) : pyDiv a b = Except.ok (a / b) := if_neg hb

theorem pyDiv_err (a : ℝ) : pyDiv a 0 = Except.error "ZeroDivisionError" := if_pos rfl

theorem pyPow_ok (a b : ℝ) (h : ¬(a = 0 ∧ b < 0)) : pyPow a b = Except.ok (a ^ b) := if_neg h

theorem pyPow_err (b : ℝ) (hb : b < 0) :
    pyPow 0 b = Except.error "ZeroDivisionError" := if_pos ⟨rfl, hb⟩

theorem ok_bind {α β : Type} (a : α) (f : α → Except String β) :
    (Except.ok a : Except String α) >>= f = f a := rfl

theorem error_bind {α β : Type} (e : String) (f : α → Except String β) :
    (Except.error e : Except String α) >>= f = Except.error e := rfl

theorem pure_eq_ok {α : Type} (a : α) : (pure a : Except String α) = Except.ok a := rfl

/-- Evaluation of `__bitsNeeded` when no intermediate operation raises. -/
theorem bitsNeededE_eval (n d : ℤ) (P : ℝ)
    (hd : (d : ℝ) ≠ 0) (hn : (n : ℝ) ≠ 0)
    (h1 : ¬(P = 0 ∧ (1 : ℝ) / (d : ℝ) < 0))
    (h2 : ¬(1 - P ^ ((1 : ℝ) / (d : ℝ)) = 0 ∧ (1 : ℝ) / (n : ℝ) < 0))
    (h3 : 1 - (1 - P ^ ((1 : ℝ) / (d : ℝ))) ^ ((1 : ℝ) / (n : ℝ)) ≠ 0) :
    bitsNeededE n d P
      = Except.ok (intTrunc
          ((d : ℝ) / (1 - (1 - P ^ ((1 : ℝ) / (d : ℝ))) ^ ((1 : ℝ) / (n : ℝ))))) := by
  simp only [bitsNeededE, pyDiv_ok 1 (d : ℝ) hd, ok_bind, pyPow_ok P _ h1,
    pyDiv_ok 1 (n : ℝ) hn, pyPow_ok _ _ h2, pyDiv_ok (d : ℝ) _ h3, pure_eq_ok]

/-- `__bitsNeeded` raises `ZeroDivisionError` at `1/d` when `numHashes = 0`. -/
theorem bitsNeededE_numHashes_zero (n : ℤ) (P : ℝ) :
    bitsNeededE n 0 P = Except.error "ZeroDivisionError" := by
  simp only [bitsNeededE, Int.cast_zero, pyDiv_err, error_bind]

/-- `__bitsNeeded` raises `ZeroDivisionError` when `numKeys = 0` (either at
`1/n`, or earlier inside `P**(1/d)` when that power is itself degenerate). -/
theorem bitsNeededE_numKeys_zero (d : ℤ) (P : ℝ) (hd : d ≠ 0) :
    bitsNeededE 0 d P = Except.error "ZeroDivisionError" := by
  have hd' : (d : ℝ) ≠ 0 := Int.cast_ne_zero.mpr hd
  by_cases hc : P = 0 ∧ (1 : ℝ) / (d : ℝ) < 0
  · obtain ⟨rfl, hlt⟩ := hc
    simp only [bitsNeededE, pyDiv_ok 1 (d : ℝ) hd', ok_bind, pyPow_err _ hlt, error_bind]
  · simp only [bitsNeededE, pyDiv_ok 1 (d : ℝ) hd', ok_bind, pyPow_ok P _ hc,
      Int.cast_zero, pyDiv_err, error_bind]

/-- `__bitsNeeded` raises `ZeroDivisionError` when `maxFalsePositive = 0`:
for `numHashes > 0` the denominator `1 - phi**(1/n)` is `1 - 1 = 0`, and for
`numHashes < 0` already `0**(1/d)` is a zero-to-a-negative-power error. -/
theorem bitsNeededE_P_zero (n d : ℤ) (hn : n ≠ 0) (hd : d ≠ 0) :
    bitsNeededE n d 0 = Except.error "ZeroDivisionError" := by
  have hd' : (d : ℝ) ≠ 0 := Int.cast_ne_zero.mpr hd
  have hn' : (n : ℝ) ≠ 0 := Int.cast_ne_zero.mpr hn
  rcases lt_or_gt_of_ne hd with hdneg | hdpos
  · have hlt : (1 : ℝ) / (d : ℝ) < 0 := by
      apply div_neg_of_pos_of_neg one_pos
      exact_mod_cast hdneg
    simp only [bitsNeededE, pyDiv_ok 1 (d : ℝ) hd', ok_bind, pyPow_err _ hlt, error_bind]
  · have hpos : (0 : ℝ) < 1 / (d : ℝ) := div_pos one_pos (by exact_mod_cast hdpos)
    have h1 : ¬((0 : ℝ) = 0 ∧ (1 : ℝ) / (d : ℝ) < 0) := by
      rintro ⟨-, hlt⟩
      exact absurd hlt (not_lt.mpr hpos.le)
    have h2 : ¬((1 : ℝ) = 0 ∧ (1 : ℝ) / (n : ℝ) < 0) := by
      rintro ⟨h, -⟩
      exact one_ne_zero h
    simp only [bitsNeededE, pyDiv_ok 1 (d : ℝ) hd', ok_bind, pyPow_ok _ _ h1,
      Real.zero_rpow (ne_of_gt hpos), sub_zero, pyDiv_ok 1 (n : ℝ) hn',
      pyPow_ok _ _ h2, Real.one_rpow, sub_self, pyDiv_err, error_bind]

/-- For valid parameters the planner's denominator `1 - phi^(1/n)` lies in
`(0, 1)`, so no operation raises and the result is at least `numHashes`. -/
theorem planner_denom_pos (n d : ℤ) (P : ℝ)
    (hn : 0 < n) (hd : 0 < d) (hP0 : 0 < P) (hP1 : P < 1) :
    0 < 1 - (1 - P ^ ((1 : ℝ) / (d : ℝ))) ^ ((1 : ℝ) / (n : ℝ)) ∧
      1 - (1 - P ^ ((1 : ℝ) / (d : ℝ))) ^ ((1 : ℝ) / (n : ℝ)) ≤ 1 := by
  have hd' : (0 : ℝ) < (d : ℝ) := by exact_mod_cast hd
  have hn' : (0 : ℝ) < (n : ℝ) := by exact_mod_cast hn
  have he1 : (0 : ℝ) < 1 / (d : ℝ) := div_pos one_pos hd'
  have he2 : (0 : ℝ) < 1 / (n : ℝ) := div_pos one_pos hn'
  have hpd0 : 0 < P ^ ((1 : ℝ) / (d : ℝ)) := Real.rpow_pos_of_pos hP0 _
  have hpd1 : P ^ ((1 : ℝ) / (d : ℝ)) < 1 := Real.rpow_lt_one hP0.le hP1 he1
  have hphi0 : 0 < 1 - P ^ ((1 : ℝ) / (d : ℝ)) := by linarith
  have hphi1 : 1 - P ^ ((1 : ℝ) / (d : ℝ)) < 1 := by linarith
  have hpn0 : 0 < (1 - P ^ ((1 : ℝ) / (d : ℝ))) ^ ((1 : ℝ) / (n : ℝ)) :=
    Real.rpow_pos_of_pos hphi0 _
  have hpn1 : (1 - P ^ ((1 : ℝ) / (d : ℝ))) ^ ((1 : ℝ) / (n : ℝ)) < 1 :=
    Real.rpow_lt_one hphi0.le hphi1 he2
  exact ⟨by linarith, by linarith⟩

/-- For valid parameters `__bitsNeeded` returns, without raising, the floor
of `d / (1 - (1 - P^(1/d))^(1/n))`, and that value is at least `d`. -/
theorem bitsNeededE_valid (n d : ℤ) (P : ℝ)
    (hn : 0 < n) (hd : 0 < d) (hP0 : 0 < P) (hP1 : P < 1) :
    bitsNeededE n d P = Except.ok (bitsNeededSpec n d P) ∧ d ≤ bitsNeededSpec n d P := by
  obtain ⟨hden0, hden1⟩ := planner_denom_pos n d P hn hd hP0 hP1
  have hd' : (0 : ℝ) < (d : ℝ) := by exact_mod_cast hd
  have hn' : (0 : ℝ) < (n : ℝ) := by exact_mod_cast hn
  have hNge : (d : ℝ) ≤ (d : ℝ) / (1 - (1 - P ^ ((1 : ℝ) / (d : ℝ))) ^ ((1 : ℝ) / (n : ℝ))) := by
    rw [le_div_iff₀ hden0]
    exact mul_le_of_le_one_right hd'.le hden1
  have hN0 : (0 : ℝ) ≤ (d : ℝ) / (1 - (1 - P ^ ((1 : ℝ) / (d : ℝ))) ^ ((1 : ℝ) / (n : ℝ))) :=
    le_trans hd'.le hNge
  have heval := bitsNeededE_eval n d P (ne_of_gt hd') (ne_of_gt hn')
    (by rintro ⟨rfl, -⟩; exact lt_irrefl _ hP0)
    (by
      rintro ⟨habs, -⟩
      have hpd1 : P ^ ((1 : ℝ) / (d : ℝ)) < 1 :=
        Real.rpow_lt_one hP0.le hP1 (div_pos one_pos hd')
      linarith)
    (ne_of_gt hden0)
  have hspec : bitsNeededSpec n d P
      = ⌊(d : ℝ) / (1 - (1 - P ^ ((1 : ℝ) / (d : ℝ))) ^ ((1 : ℝ) / (n : ℝ)))⌋ := rfl
  constructor
  · rw [heval, hspec, intTrunc, if_pos hN0]
  · rw [hspec]
    exact Int.le_floor.mpr (by exact_mod_cast hNge)

/-- Concrete planner evaluation: `bitsNeeded(1, 1, 0.5) = 2`. -/
theorem bitsNeededE_half : bitsNeededE 1 1 ((1 : ℝ) / 2) = Except.ok 2 := by
  have h := bitsNeededE_eval 1 1 ((1 : ℝ) / 2)
    (by norm_num) (by norm_num)
    (by norm_num)
    (by norm_num [Real.rpow_one])
    (by norm_num [Real.rpow_one])
  rw [h]
  norm_num [Real.rpow_one, intTrunc]

/-- Concrete planner evaluation at the out-of-range rate `P = 1`:
no exception, result `1`. -/
theorem bitsNeededE_one : bitsNeededE 1 1 (1 : ℝ) = Except.ok 1 := by
  have h := bitsNeededE_eval 1 1 (1 : ℝ)
    (by norm_num) (by norm_num)
    (by norm_num)
    (by norm_num [Real.one_rpow])
    (by norm_num [Real.one_rpow, Real.rpow_one])
  rw [h]
  norm_num [Real.one_rpow, Real.rpow_one, intTrunc]

/-- Concrete construction: `BloomFilter(1, 1, 0.5)` has a 2-bit storage. -/
theorem newFilter_half : newFilter 1 1 ((1 : ℝ) / 2) = Except.ok (mkFilter 2 1) := by
  rw [newFilter, bitsNeededE_half, ok_bind]
  rfl

/-- Concrete construction at the out-of-range rate `P = 1`: no exception,
storage of length `numHashes = 1` is allocated. -/
theorem newFilter_one : newFilter 1 1 (1 : ℝ) = Except.ok (mkFilter 1 1) := by
  rw [newFilter, bitsNeededE_one, ok_bind]
  rfl

/-! ### Further helpers: fresh storage, no-op re-insertion, construction -/

theorem getD_replicate_false (n i : ℕ) : (List.replicate n false).getD i false = false := by
  induction n generalizing i with
  | zero => simp
  | succ n ih =>
      cases i with
      | zero => rfl
      | succ i => simp [List.replicate]

theorem set_true_of_getD (l : List Bool) (i : ℕ) (h : l.getD i false = true) :
    l.set i true = l := by
  induction l generalizing i with
  | nil => rfl
  | cons a t ih =>
      cases i with
      | zero =>
          simp only [List.getD_cons_zero] at h
          rw [List.set_cons_zero, h]
      | succ i =>
          simp only [List.getD_cons_succ] at h
          rw [List.set_cons_succ, ih i h]

/-- Re-running the insert loop over probes whose bits are all already set
changes nothing. -/
theorem insertLoop_noop (BitHash : κ → ℕ → ℕ) (key : κ) (h n : ℕ) (bf : BloomFilter)
    (hall : ∀ j, j < n →
      bf.bloomFilter.getD (hashFrom BitHash key h j % bf.size) false = true) :
    insertLoop BitHash key h n bf = bf := by
  induction n generalizing h with
  | zero => rfl
  | succ n ih =>
      have h0 : bf.bloomFilter.getD (h % bf.size) false = true := by
        have := hall 0 (Nat.succ_pos n)
        rwa [hashFrom] at this
      rw [insertLoop_succ, if_neg (by rw [h0]; exact Bool.true_eq_false ▸ (by simp)),
        set_true_of_getD _ _ h0]
      have hbf : { bf with bloomFilter := bf.bloomFilter, bitsSet := bf.bitsSet } = bf := rfl
      rw [hbf]
      refine ih (BitHash key h) fun j hj => ?_
      have := hall (j + 1) (by omega)
      rwa [hashFrom_succ] at this

/-- Inserting a key whose probe bits are all already set is a no-op. -/
theorem insert_noop (BitHash : κ → ℕ → ℕ) (key : κ) (bf : BloomFilter)
    (hall : ∀ j ∈ probeIndices BitHash key bf, bf.bloomFilter.getD j false = true) :
    insert BitHash key bf = bf := by
  rw [insert]
  refine insertLoop_noop BitHash key _ _ bf fun j hj => ?_
  rw [← hashSeq_eq_hashFrom]
  exact hall _ ((mem_probeIndices _ _ _ _).2 ⟨j, hj, rfl⟩)

/-- Once a key is inserted, any later sequence of method calls leaves all of
its probe bits set, so `find` returns `true`. -/
theorem find_after_insert (BitHash : κ → ℕ → ℕ) (key : κ) (bf : BloomFilter)
    (hlen : bf.bloomFilter.length = bf.size) (hsz : 0 < bf.size) (ops : List (Op κ)) :
    find BitHash key (runOps BitHash ops (insert BitHash key bf)) = true := by
  rw [find_eq_true_iff]
  intro j hj
  have hnh : (runOps BitHash ops (insert BitHash key bf)).numHashes = bf.numHashes := by
    rw [runOps_numHashes, insert_numHashes]
  have hsz' : (runOps BitHash ops (insert BitHash key bf)).size = bf.size := by
    rw [runOps_size, insert_size]
  rw [probeIndices_congr BitHash key bf _ hnh hsz'] at hj
  exact runOps_bit_mono _ _ _ _ (insert_sets_probes _ _ _ hlen hsz j hj)

/-- A planner exception propagates out of construction. -/
theorem newFilter_err (n d : ℤ) (P : ℝ) (e : String)
    (h : bitsNeededE n d P = Except.error e) :
    newFilter n d P = Except.error e := by
  rw [newFilter, h, error_bind]

/-- What a successful valid construction yields: positive storage of the
planner's size, a positive hash count, and zero set bits. -/
theorem newFilter_ok_elim (n d : ℤ) (P : ℝ)
    (hn : 0 < n) (hd : 0 < d) (hP0 : 0 < P) (hP1 : P < 1)
    (bf0 : BloomFilter) (h : newFilter n d P = Except.ok bf0) :
    bf0.bloomFilter.length = bf0.size ∧ 0 < bf0.size ∧ 0 < bf0.numHashes ∧
      bf0.bloomFilter.count true = bf0.bitsSet := by
  obtain ⟨heq, hge⟩ := bitsNeededE_valid n d P hn hd hP0 hP1
  rw [newFilter, heq, ok_bind, pure_eq_ok] at h
  have hbf : mkFilter (bitsNeededSpec n d P).toNat d.toNat = bf0 := Except.ok.inj h
  subst hbf
  have hszpos : 0 < (bitsNeededSpec n d P).toNat := by
    have : (0 : ℤ) < bitsNeededSpec n d P := lt_of_lt_of_le hd hge
    omega
  have hdpos : 0 < d.toNat := by omega
  exact ⟨mkFilter_length _ _, hszpos, hdpos, mkFilter_count _ _⟩

/-! ### The claims -/

/-- Claim C1: no false negatives.  For every filter validly constructed
(`numKeys > 0`, `numHashes > 0`, `0 < maxFalsePositive < 1`), after
`insert(key)` a call `find(key)` returns `true`, and this remains true
across any subsequent sequence of method calls (in particular inserts of
other keys) interleaved before the find; prior operations on the filter are
also allowed. -/
theorem noFalseNegatives (BitHash : κ → ℕ → ℕ) (numKeys numHashes : ℤ) (P : ℝ)
    (hn : 0 < numKeys) (hd : 0 < numHashes) (hP0 : 0 < P) (hP1 : P < 1)
    (bf0 : BloomFilter) (hconstr : newFilter numKeys numHashes P = Except.ok bf0)
    (pre ops : List (Op κ)) (key : κ) :
    find BitHash key
      (runOps BitHash ops (insert BitHash key (runOps BitHash pre bf0))) = true := by
  obtain ⟨hlen, hsz, -, -⟩ := newFilter_ok_elim _ _ _ hn hd hP0 hP1 bf0 hconstr
  apply find_after_insert
  · rw [runOps_length, runOps_size, hlen]
  · rw [runOps_size]; exact hsz

theorem noFalseNegatives_witness :
    find (fun (k s : ℕ) => k + s) 5
      (runOps (fun (k s : ℕ) => k + s) [Op.insert 9]
        (insert (fun (k s : ℕ) => k + s) 5
          (runOps (fun (k s : ℕ) => k + s) [] (mkFilter 2 1)))) = true :=
  noFalseNegatives (fun (k s : ℕ) => k + s) 1 1 ((1 : ℝ) / 2)
    (by norm_num) (by norm_num) (by norm_num) (by norm_num)
    (mkFilter 2 1) newFilter_half [] [Op.insert 9] 5

/-- Claim C2: accounting invariant.  At every state reachable from a valid
construction by any sequence of method calls, `numBitsSet()` equals the true
number of 1-bits in the storage bit array. -/
theorem accountingInvariant (BitHash : κ → ℕ → ℕ) (numKeys numHashes : ℤ) (P : ℝ)
    (hn : 0 < numKeys) (hd : 0 < numHashes) (hP0 : 0 < P) (hP1 : P < 1)
    (bf0 : BloomFilter) (hconstr : newFilter numKeys numHashes P = Except.ok bf0)
    (ops : List (Op κ)) :
    numBitsSet (runOps BitHash ops bf0)
      = (runOps BitHash ops bf0).bloomFilter.count true := by
  obtain ⟨hlen, hsz, -, hacc⟩ := newFilter_ok_elim _ _ _ hn hd hP0 hP1 bf0 hconstr
  exact (runOps_count BitHash ops bf0 hlen hsz hacc).symm

theorem accountingInvariant_witness :
    numBitsSet (runOps (fun (k s : ℕ) => k + s) [Op.insert 3] (mkFilter 2 1))
      = (runOps (fun (k s : ℕ) => k + s) [Op.insert 3]
          (mkFilter 2 1)).bloomFilter.count true :=
  accountingInvariant (fun (k s : ℕ) => k + s) 1 1 ((1 : ℝ) / 2)
    (by norm_num) (by norm_num) (by norm_num) (by norm_num)
    (mkFilter 2 1) newFilter_half [Op.insert 3]

/-- Claim C3: sizing formula.  For valid parameters, `__bitsNeeded` returns
(without raising) the integer obtained by computing `phi = 1 - P^(1/d)`,
then `N = d / (1 - phi^(1/n))`, then truncating `N` toward zero — which for
these parameters is the floor, as `N > 0`. -/
theorem plannerFormula (numKeys numHashes : ℤ) (P : ℝ)
    (hn : 0 < numKeys) (hd : 0 < numHashes) (hP0 : 0 < P) (hP1 : P < 1) :
    bitsNeededE numKeys numHashes P = Except.ok (bitsNeededSpec numKeys numHashes P) :=
  (bitsNeededE_valid _ _ _ hn hd hP0 hP1).1

theorem plannerFormula_witness :
    bitsNeededE 1 1 ((1 : ℝ) / 2) = Except.ok (bitsNeededSpec 1 1 ((1 : ℝ) / 2)) :=
  plannerFormula 1 1 ((1 : ℝ) / 2) (by norm_num) (by norm_num) (by norm_num) (by norm_num)

/-- Claim C4, counterexample: `maxFalsePositive = 1` lies outside `(0, 1)`,
yet construction surfaces no error at all — it silently proceeds and
allocates a storage of length `numHashes = 1`. -/
theorem constructionValidation_cex :
    ¬((0 : ℝ) < 1 ∧ (1 : ℝ) < 1) ∧ newFilter 1 1 (1 : ℝ) = Except.ok (mkFilter 1 1) :=
  ⟨by norm_num, newFilter_one⟩

/-- Claim C4 (amended): construction performs no explicit validation, and
invalid parameters surface errors only where the sizing arithmetic itself
raises: `numHashes = 0`, `numKeys = 0`, or `maxFalsePositive = 0` raise
`ZeroDivisionError` before any storage is allocated, but at
`maxFalsePositive = 1` (outside `(0,1)`) construction silently proceeds and
allocates storage of length `numHashes`. -/
theorem constructionValidation_amended :
    (∀ (n : ℤ) (P : ℝ), newFilter n 0 P = Except.error "ZeroDivisionError") ∧
    (∀ (d : ℤ) (P : ℝ), d ≠ 0 → newFilter 0 d P = Except.error "ZeroDivisionError") ∧
    (∀ n d : ℤ, n ≠ 0 → d ≠ 0 → newFilter n d (0 : ℝ) = Except.error "ZeroDivisionError") ∧
    newFilter 1 1 (1 : ℝ) = Except.ok (mkFilter 1 1) := by
  refine ⟨fun n P => ?_, fun d P hd => ?_, fun n d hn hd => ?_, newFilter_one⟩
  · exact newFilter_err _ _ _ _ (bitsNeededE_numHashes_zero n P)
  · exact newFilter_err _ _ _ _ (bitsNeededE_numKeys_zero d P hd)
  · exact newFilter_err _ _ _ _ (bitsNeededE_P_zero n d hn hd)

theorem constructionValidation_amended_witness :
    newFilter 7 0 ((1 : ℝ) / 2) = Except.error "ZeroDivisionError" ∧
    newFilter 0 3 ((1 : ℝ) / 2) = Except.error "ZeroDivisionError" ∧
    newFilter 5 3 (0 : ℝ) = Except.error "ZeroDivisionError" ∧
    newFilter 1 1 (1 : ℝ) = Except.ok (mkFilter 1 1) :=
  ⟨constructionValidation_amended.1 7 ((1 : ℝ) / 2),
   constructionValidation_amended.2.1 3 ((1 : ℝ) / 2) (by norm_num),
   constructionValidation_amended.2.2.1 5 3 (by norm_num) (by norm_num),
   constructionValidation_amended.2.2.2⟩

/-- Claim C5: find semantics.  `find` returns `true` exactly when all
`hashCount` probed bits are 1 (returning `false` as soon as a probed bit is
0); `insert` sets exactly the same probe indices that `find` examines; and
on a freshly constructed filter (all bits 0, `hashCount > 0`) `find`
returns `false` for every key. -/
theorem findSemantics (BitHash : κ → ℕ → ℕ) :
    (∀ (key : κ) (bf : BloomFilter),
      find BitHash key bf = true ↔
        ∀ j ∈ probeIndices BitHash key bf, bf.bloomFilter.getD j false = true) ∧
    (∀ (key : κ) (bf : BloomFilter),
      bf.bloomFilter.length = bf.size → 0 < bf.size → ∀ j : ℕ,
        ((insert BitHash key bf).bloomFilter.getD j false = true ↔
          (bf.bloomFilter.getD j false = true ∨ j ∈ probeIndices BitHash key bf))) ∧
    (∀ (key : κ) (num d : ℕ), 0 < d → find BitHash key (mkFilter num d) = false) := by
  refine ⟨fun key bf => find_eq_true_iff _ _ _,
    fun key bf hlen hsz j => insert_getD _ _ _ hlen hsz j,
    fun key num d hd => ?_⟩
  have hmem : hashSeq BitHash key 0 % num ∈ probeIndices BitHash key (mkFilter num d) :=
    (mem_probeIndices _ _ _ _).2 ⟨0, hd, rfl⟩
  have hbit : (mkFilter num d).bloomFilter.getD (hashSeq BitHash key 0 % num) false = false :=
    getD_replicate_false _ _
  cases hfind : find BitHash key (mkFilter num d) with
  | false => rfl
  | true =>
      have hone := (find_eq_true_iff BitHash key (mkFilter num d)).1 hfind _ hmem
      rw [hbit] at hone
      exact absurd hone (by simp)

theorem findSemantics_witness :
    find (fun (k s : ℕ) => k + s) 5 (mkFilter 2 1) = false :=
  (findSemantics (fun (k s : ℕ) => k + s)).2.2 5 2 1 (by norm_num)

/-- Claim C6: `falsePositiveRate` returns `(1 - phi)^hashCount` with
`phi = (capacityBits - bitsSetCount)/capacityBits`, depends only on the
current fill level (`size`, `bitsSet`, `numHashes`), and returns `0` on a
freshly constructed (empty) filter. -/
theorem falsePositiveRateFormula :
    (∀ bf : BloomFilter, falsePositiveRate bf = falsePositiveRateSpec bf) ∧
    (∀ bf bf' : BloomFilter, bf.size = bf'.size → bf.bitsSet = bf'.bitsSet →
      bf.numHashes = bf'.numHashes → falsePositiveRate bf = falsePositiveRate bf') ∧
    (∀ num d : ℕ, 0 < num → 0 < d → falsePositiveRate (mkFilter num d) = 0) := by
  refine ⟨fun bf => rfl, fun bf bf' h1 h2 h3 => ?_, fun num d hnum hd => ?_⟩
  · rw [falsePositiveRate, falsePositiveRate, h1, h2, h3]
  · have hq : ((num : ℚ)) ≠ 0 := by
      exact_mod_cast Nat.pos_iff_ne_zero.mp hnum
    show (1 - (((num : ℕ) : ℚ) - ((0 : ℕ) : ℚ)) / ((num : ℕ) : ℚ)) ^ d = 0
    rw [Nat.cast_zero, sub_zero, div_self hq, sub_self]
    exact zero_pow (Nat.pos_iff_ne_zero.mp hd)

theorem falsePositiveRateFormula_witness :
    falsePositiveRate (mkFilter 2 1) = 0 :=
  falsePositiveRateFormula.2.2 2 1 (by norm_num) (by norm_num)

/-- Claim C7: monotonicity.  Over any sequence of operations on a validly
constructed filter, `numBitsSet()` is non-decreasing, never exceeds
`capacityBits`, and every storage bit only ever transitions 0 → 1, never
back. -/
theorem monotonicity (BitHash : κ → ℕ → ℕ) (numKeys numHashes : ℤ) (P : ℝ)
    (hn : 0 < numKeys) (hd : 0 < numHashes) (hP0 : 0 < P) (hP1 : P < 1)
    (bf0 : BloomFilter) (hconstr : newFilter numKeys numHashes P = Except.ok bf0)
    (ops more : List (Op κ)) :
    numBitsSet (runOps BitHash ops bf0)
        ≤ numBitsSet (runOps BitHash (ops ++ more) bf0) ∧
    numBitsSet (runOps BitHash ops bf0) ≤ (runOps BitHash ops bf0).size ∧
    (∀ j : ℕ, (runOps BitHash ops bf0).bloomFilter.getD j false = true →
      (runOps BitHash (ops ++ more) bf0).bloomFilter.getD j false = true) := by
  obtain ⟨hlen, hsz, -, hacc⟩ := newFilter_ok_elim _ _ _ hn hd hP0 hP1 bf0 hconstr
  have happ : runOps BitHash (ops ++ more) bf0
      = runOps BitHash more (runOps BitHash ops bf0) := by
    rw [runOps, runOps, runOps, List.foldl_append]
  refine ⟨?_, ?_, ?_⟩
  · rw [happ]
    exact runOps_bitsSet_le _ _ _
  · have hacc' := runOps_count BitHash ops bf0 hlen hsz hacc
    calc numBitsSet (runOps BitHash ops bf0)
        = (runOps BitHash ops bf0).bloomFilter.count true := hacc'.symm
      _ ≤ (runOps BitHash ops bf0).bloomFilter.length := List.count_le_length _ _
      _ = bf0.bloomFilter.length := runOps_length _ _ _
      _ = bf0.size := hlen
      _ = (runOps BitHash ops bf0).size := (runOps_size _ _ _).symm
  · intro j hj
    rw [happ]
    exact runOps_bit_mono _ _ _ _ hj

theorem monotonicity_witness :
    numBitsSet (runOps (fun (k s : ℕ) => k + s) [] (mkFilter 2 1))
        ≤ numBitsSet (runOps (fun (k s : ℕ) => k + s) ([] ++ [Op.insert 3]) (mkFilter 2 1)) ∧
    numBitsSet (runOps (fun (k s : ℕ) => k + s) [] (mkFilter 2 1))
        ≤ (runOps (fun (k s : ℕ) => k + s) [] (mkFilter 2 1)).size ∧
    (∀ j : ℕ,
      (runOps (fun (k s : ℕ) => k + s) [] (mkFilter 2 1)).bloomFilter.getD j false = true →
      (runOps (fun (k s : ℕ) => k + s) ([] ++ [Op.insert 3])
          (mkFilter 2 1)).bloomFilter.getD j false = true) :=
  monotonicity (fun (k s : ℕ) => k + s) 1 1 ((1 : ℝ) / 2)
    (by norm_num) (by norm_num) (by norm_num) (by norm_num)
    (mkFilter 2 1) newFilter_half [] [Op.insert 3]

/-- Claim C8: idempotent bit-accounting.  At every reachable state of a
validly constructed filter, inserting the same key a second time changes
neither the storage bits nor `numBitsSet()`. -/
theorem idempotentInsert (BitHash : κ → ℕ → ℕ) (numKeys numHashes : ℤ) (P : ℝ)
    (hn : 0 < numKeys) (hd : 0 < numHashes) (hP0 : 0 < P) (hP1 : P < 1)
    (bf0 : BloomFilter) (hconstr : newFilter numKeys numHashes P = Except.ok bf0)
    (ops : List (Op κ)) (key : κ) :
    insert BitHash key (insert BitHash key (runOps BitHash ops bf0))
        = insert BitHash key (runOps BitHash ops bf0) ∧
    numBitsSet (insert BitHash key (insert BitHash key (runOps BitHash ops bf0)))
        = numBitsSet (insert BitHash key (runOps BitHash ops bf0)) := by
  obtain ⟨hlen, hsz, -, -⟩ := newFilter_ok_elim _ _ _ hn hd hP0 hP1 bf0 hconstr
  have hlen' : (runOps BitHash ops bf0).bloomFilter.length = (runOps BitHash ops bf0).size := by
    rw [runOps_length, runOps_size, hlen]
  have hsz' : 0 < (runOps BitHash ops bf0).size := by
    rw [runOps_size]; exact hsz
  have hmain : insert BitHash key (insert BitHash key (runOps BitHash ops bf0))
      = insert BitHash key (runOps BitHash ops bf0) := by
    apply insert_noop
    intro j hj
    have hnh : (insert BitHash key (runOps BitHash ops bf0)).numHashes
        = (runOps BitHash ops bf0).numHashes := insert_numHashes _ _ _
    have hszeq : (insert BitHash key (runOps BitHash ops bf0)).size
        = (runOps BitHash ops bf0).size := insert_size _ _ _
    rw [probeIndices_congr BitHash key (runOps BitHash ops bf0) _ hnh hszeq] at hj
    exact insert_sets_probes BitHash key (runOps BitHash ops bf0) hlen' hsz' j hj
  exact ⟨hmain, congrArg numBitsSet hmain⟩

theorem idempotentInsert_witness :
    insert (fun (k s : ℕ) => k + s) 3
        (insert (fun (k s : ℕ) => k + s) 3
          (runOps (fun (k s : ℕ) => k + s) [] (mkFilter 2 1)))
      = insert (fun (k s : ℕ) => k + s) 3
          (runOps (fun (k s : ℕ) => k + s) [] (mkFilter 2 1)) ∧
    numBitsSet (insert (fun (k s : ℕ) => k + s) 3
        (insert (fun (k s : ℕ) => k + s) 3
          (runOps (fun (k s : ℕ) => k + s) [] (mkFilter 2 1))))
      = numBitsSet (insert (fun (k s : ℕ) => k + s) 3
          (runOps (fun (k s : ℕ) => k + s) [] (mkFilter 2 1))) :=
  idempotentInsert (fun (k s : ℕ) => k + s) 1 1 ((1 : ℝ) / 2)
    (by norm_num) (by norm_num) (by norm_num) (by norm_num)
    (mkFilter 2 1) newFilter_half [] 3

/-- Claim C9: totality after valid construction.  For valid parameters the
planner returns a positive integer without raising, the constructed filter
has `capacityBits > 0` and `hashCount > 0`, and at every reachable state
every probe index computed via modulo is within storage bounds, so `insert`
and `find` complete without any error. -/
theorem totalOperations (BitHash : κ → ℕ → ℕ) (numKeys numHashes : ℤ) (P : ℝ)
    (hn : 0 < numKeys) (hd : 0 < numHashes) (hP0 : 0 < P) (hP1 : P < 1) :
    (∃ m : ℤ, bitsNeededE numKeys numHashes P = Except.ok m ∧ 0 < m) ∧
    ∀ bf0 : BloomFilter, newFilter numKeys numHashes P = Except.ok bf0 →
      0 < bf0.size ∧ 0 < bf0.numHashes ∧
      ∀ (ops : List (Op κ)) (key : κ) (j : ℕ),
        j ∈ probeIndices BitHash key (runOps BitHash ops bf0) →
          j < (runOps BitHash ops bf0).bloomFilter.length := by
  obtain ⟨heq, hge⟩ := bitsNeededE_valid _ _ _ hn hd hP0 hP1
  refine ⟨⟨_, heq, lt_of_lt_of_le hd hge⟩, fun bf0 hconstr => ?_⟩
  obtain ⟨hlen, hsz, hdh, -⟩ := newFilter_ok_elim _ _ _ hn hd hP0 hP1 bf0 hconstr
  refine ⟨hsz, hdh, fun ops key j hj => ?_⟩
  rw [mem_probeIndices] at hj
  obtain ⟨i, hi, rfl⟩ := hj
  rw [runOps_size, runOps_length, hlen]
  exact Nat.mod_lt _ hsz

theorem totalOperations_witness :
    (∃ m : ℤ, bitsNeededE 1 1 ((1 : ℝ) / 2) = Except.ok m ∧ 0 < m) ∧
    ∀ bf0 : BloomFilter, newFilter 1 1 ((1 : ℝ) / 2) = Except.ok bf0 →
      0 < bf0.size ∧ 0 < bf0.numHashes ∧
      ∀ (ops : List (Op ℕ)) (key : ℕ) (j : ℕ),
        j ∈ probeIndices (fun (k s : ℕ) => k + s) key
            (runOps (fun (k s : ℕ) => k + s) ops bf0) →
          j < (runOps (fun (k s : ℕ) => k + s) ops bf0).bloomFilter.length :=
  totalOperations (fun (k s : ℕ) => k + s) 1 1 ((1 : ℝ) / 2)
    (by norm_num) (by norm_num) (by norm_num) (by norm_num)

/-- Claim C10: read operations do not mutate.  `find`, `falsePositiveRate`
and `numBitsSet` leave the filter state unchanged (their Python bodies
contain no attribute assignment), so running one of them before any
sequence of operations yields the same state as running the sequence
directly. -/
theorem readsDoNotMutate (BitHash : κ → ℕ → ℕ) (bf : BloomFilter) (key : κ)
    (ops : List (Op κ)) :
    applyOp BitHash (Op.find key) bf = bf ∧
    applyOp BitHash Op.falsePositiveRate bf = bf ∧
    applyOp BitHash Op.numBitsSet bf = bf ∧
    runOps BitHash (Op.find key :: ops) bf = runOps BitHash ops bf ∧
    runOps BitHash (Op.falsePositiveRate :: ops) bf = runOps BitHash ops bf ∧
    runOps BitHash (Op.numBitsSet :: ops) bf = runOps BitHash ops bf :=
  ⟨rfl, rfl, rfl, rfl, rfl, rfl⟩

end BloomPy
